import Mathlib

/-!
# Verification of the hybrid-retrieval RAG system

A shallow embedding, in Lean, of the text chunker (`src/document_processor.py`),
the keyword scorer and the hybrid search ranker (`src/vector_store.py`).

Texts are modelled as `List Char`; Python floats are modelled as exact
rationals (`ℚ`); the external tokenizer-driven keyword extractor (jieba) and
the external vector index are parameters of the definitions that call them.
Python's `list.sort(key=..., reverse=True)` is a stable descending sort and is
embedded as `List.mergeSort` (Lean's stable merge sort) under the total
preorder comparing hybrid scores downward.
-/

namespace RAG

/-! ## Text chunking (`DocumentProcessor`, src/document_processor.py) -/

/-- Sentence-terminal characters used by `split_into_sentences`
(`sentence_endings = ['。', '！', '？', '…', '；', '\n']`). -/
def sentence_endings : List Char := ['。', '！', '？', '…', '；', '\n']

/-- The character scan of `DocumentProcessor.split_into_sentences`: each
character is appended to the current sentence; a terminal character closes the
sentence; a trailing partial sentence is emitted at end of input. -/
def splitGo : List Char → List Char → List (List Char)
  | [], current => if current = [] then [] else [current]
  | c :: rest, current =>
    if c ∈ sentence_endings then (current ++ [c]) :: splitGo rest []
    else splitGo rest (current ++ [c])

/-- `DocumentProcessor.split_into_sentences`. -/
def split_into_sentences (text : List Char) : List (List Char) :=
  splitGo text []

/-- Accumulated character length of a chunk held as a list of sentences
(the `current_size` counter of `split_text`). -/
def chunk_size (chunk : List (List Char)) : ℕ :=
  (chunk.map List.length).sum

/-- The backward walk of `split_text` that collects the overlap buffer:
given the reversed sentence list of the just-closed chunk, take sentences
while the accumulated length stays within the overlap budget, stopping at the
first sentence that does not fit (`break`). -/
def take_overlap (ov : ℕ) : ℕ → List (List Char) → List (List Char)
  | _, [] => []
  | acc, s :: rest =>
    if acc + s.length ≤ ov then s :: take_overlap ov (acc + s.length) rest
    else []

/-- The overlap buffer seeded into the next chunk: whole trailing sentences of
the closed chunk, in original order (`overlap_buffer.insert(0, sent)`). -/
def overlap_of (ov : ℕ) (chunk : List (List Char)) : List (List Char) :=
  (take_overlap ov 0 chunk.reverse).reverse

/-- The sentence loop of `DocumentProcessor.split_text`.  After appending a
sentence the chunk is closed when its size reaches `mx`, or reaches `mn` on a
non-final sentence; a closed chunk is emitted and the loop restarts from its
overlap buffer.  The inner `if current_chunk:` guard of the source is kept,
though the freshly appended chunk is never empty. -/
def split_loop (mn mx ov : ℕ) : List (List Char) → List (List Char) → List (List Char)
  | [], current_chunk =>
    if current_chunk = [] then [] else [current_chunk.flatten]
  | sentence :: rest, current_chunk =>
    let chunk2 := current_chunk ++ [sentence]
    if chunk_size chunk2 ≥ mx ∨ (chunk_size chunk2 ≥ mn ∧ rest ≠ []) then
      if chunk2 = [] then split_loop mn mx ov rest chunk2
      else chunk2.flatten :: split_loop mn mx ov rest (overlap_of ov chunk2)
    else split_loop mn mx ov rest chunk2

/-- `DocumentProcessor.split_text` with the configuration
(`min_chunk_size`, `max_chunk_size`, `overlap_size`) made explicit. -/
def split_text (mn mx ov : ℕ) (text : List Char) : List (List Char) :=
  if text = [] then []
  else split_loop mn mx ov (split_into_sentences text) []

/-- The loop of `split_text`, instrumented to emit each chunk as the pair of
its overlap-seed text and the text contributed by sentences appended after the
seed.  `seed ++ added` is the `current_chunk` of `split_loop`. -/
def split_loopP (mn mx ov : ℕ) :
    List (List Char) → List (List Char) → List (List Char) → List (List Char × List Char)
  | [], seed, added =>
    if seed ++ added = [] then [] else [(seed.flatten, added.flatten)]
  | sentence :: rest, seed, added =>
    let chunk2 := seed ++ (added ++ [sentence])
    if chunk_size chunk2 ≥ mx ∨ (chunk_size chunk2 ≥ mn ∧ rest ≠ []) then
      if chunk2 = [] then split_loopP mn mx ov rest seed (added ++ [sentence])
      else (seed.flatten, (added ++ [sentence]).flatten) ::
        split_loopP mn mx ov rest (overlap_of ov chunk2) []
    else split_loopP mn mx ov rest seed (added ++ [sentence])

/-- `split_text`, instrumented with overlap-seed/body pairs. -/
def split_textP (mn mx ov : ℕ) (text : List Char) : List (List Char × List Char) :=
  if text = [] then []
  else split_loopP mn mx ov (split_into_sentences text) [] []

/-- The configuration constraint the spec demands:
`0 < overlap < min_size ≤ max_size`. -/
def valid_config (mn mx ov : ℕ) : Prop :=
  0 < ov ∧ ov < mn ∧ mn ≤ mx

instance (mn mx ov : ℕ) : Decidable (valid_config mn mx ov) := by
  unfold valid_config; infer_instance

/-- Error kind named by the spec for invalid chunking configurations. -/
inductive ChunkError where
  | invalidConfiguration
deriving DecidableEq

/-- Modelled from the spec: the spec's `TextChunker.split` contract (§4.1)
fails with `InvalidConfiguration` whenever `0 < overlap < min_size ≤ max_size`
is violated, and otherwise chunks the text.  No such validation exists in
`src/document_processor.py`; this definition follows the spec's words and is
compared against the source's behaviour. -/
def split_text_spec (mn mx ov : ℕ) (text : List Char) :
    Except ChunkError (List (List Char)) :=
  if valid_config mn mx ov then Except.ok (split_text mn mx ov text)
  else Except.error ChunkError.invalidConfiguration

/-- The observable outcome of running `DocumentProcessor.split_text`: the
source performs no configuration validation and raises nothing, so the run
always returns its chunk list on the success channel. -/
def split_text_run (mn mx ov : ℕ) (text : List Char) :
    Except ChunkError (List (List Char)) :=
  Except.ok (split_text mn mx ov text)

/-! ### Basic lemmas about sentence splitting -/

theorem flatten_splitGo (rest : List Char) :
    ∀ cur, (splitGo rest cur).flatten = cur ++ rest := by
  induction rest with
  | nil =>
    intro cur
    by_cases h : cur = [] <;> simp [splitGo, h]
  | cons c rest ih =>
    intro cur
    by_cases h : c ∈ sentence_endings <;>
      simp [splitGo, h, ih]

theorem flatten_split_into_sentences (text : List Char) :
    (split_into_sentences text).flatten = text := by
  simpa [split_into_sentences] using flatten_splitGo text []

theorem split_into_sentences_eq_nil_iff (text : List Char) :
    split_into_sentences text = [] ↔ text = [] := by
  constructor
  · intro h
    have := flatten_split_into_sentences text
    rw [h] at this
    simpa using this.symm
  · intro h
    simp [h, split_into_sentences, splitGo]

/-! ### The loop never produces an empty chunk list from a non-empty state -/

theorem split_loop_ne_nil (mn mx ov : ℕ) :
    ∀ (sents cur : List (List Char)), cur ≠ [] ∨ sents ≠ [] →
      split_loop mn mx ov sents cur ≠ [] := by
  intro sents
  induction sents with
  | nil =>
    intro cur h
    rcases h with h | h
    · simp [split_loop, h]
    · exact absurd rfl h
  | cons s rest ih =>
    intro cur _
    rw [split_loop]
    by_cases hsplit : chunk_size (cur ++ [s]) ≥ mx ∨ (chunk_size (cur ++ [s]) ≥ mn ∧ rest ≠ [])
    · have hne : cur ++ [s] ≠ [] := by simp
      simp only [hsplit, if_pos, if_neg hne]
      exact List.cons_ne_nil _ _
    · simp only [hsplit, if_neg, if_false]
      exact ih (cur ++ [s]) (Or.inl (by simp))

/-! ### Step lemmas for the chunk-closing decision -/

theorem split_loop_close (mn mx ov : ℕ) (s : List Char) (rest cur : List (List Char))
    (h : chunk_size (cur ++ [s]) ≥ mx ∨ (chunk_size (cur ++ [s]) ≥ mn ∧ rest ≠ [])) :
    split_loop mn mx ov (s :: rest) cur =
      (cur ++ [s]).flatten :: split_loop mn mx ov rest (overlap_of ov (cur ++ [s])) := by
  rw [split_loop]
  have hne : cur ++ [s] ≠ [] := by simp
  simp only [h, if_pos, if_neg hne]

theorem split_loop_cont (mn mx ov : ℕ) (s : List Char) (rest cur : List (List Char))
    (h : ¬(chunk_size (cur ++ [s]) ≥ mx ∨ (chunk_size (cur ++ [s]) ≥ mn ∧ rest ≠ []))) :
    split_loop mn mx ov (s :: rest) cur = split_loop mn mx ov rest (cur ++ [s]) := by
  rw [split_loop]
  simp only [h, if_neg, if_false]

theorem split_loop_last (mn mx ov : ℕ) (cur : List (List Char)) (h : cur ≠ []) :
    split_loop mn mx ov [] cur = [cur.flatten] := by
  simp [split_loop, h]

/-! ### Suffix and infix helpers -/

theorem suffix_append_same {α : Type} {l m t : List α} (h : l <:+ m) :
    l ++ t <:+ m ++ t := by
  rcases h with ⟨u, rfl⟩
  exact ⟨u, by simp⟩

theorem infix_extends_to_suffix {α : Type} {l m n : List α}
    (h₁ : l <:+: m) (h₂ : m <:+ n) : l <:+: n := by
  rcases h₁ with ⟨s, t, rfl⟩
  rcases h₂ with ⟨u, rfl⟩
  exact ⟨u ++ s, t, by simp⟩

/-! ### The overlap buffer is a suffix of the closed chunk -/

theorem take_overlap_isPre (ov : ℕ) :
    ∀ (r : List (List Char)) (acc : ℕ), take_overlap ov acc r <+: r := by
  intro r
  induction r with
  | nil => intro acc; simp [take_overlap]
  | cons s rest ih =>
    intro acc
    rw [take_overlap]
    by_cases h : acc + s.length ≤ ov
    · rcases ih (acc + s.length) with ⟨t, ht⟩
      exact ⟨t, by simp [h, ht]⟩
    · simp [h]

theorem rev_suffix_of_pre {α : Type} {l m : List α} (h : l <+: m) :
    l.reverse <:+ m.reverse := by
  rcases h with ⟨u, rfl⟩
  exact ⟨u.reverse, by simp⟩

theorem rev_pre_of_suffix {α : Type} {l m : List α} (h : l <:+ m) :
    l.reverse <+: m.reverse := by
  rcases h with ⟨u, rfl⟩
  exact ⟨u.reverse, by simp⟩

theorem overlap_of_isSuf (ov : ℕ) (chunk : List (List Char)) :
    overlap_of ov chunk <:+ chunk := by
  have h := rev_suffix_of_pre (take_overlap_isPre ov chunk.reverse 0)
  rw [List.reverse_reverse] at h
  exact h

theorem chunk_size_reverse (l : List (List Char)) :
    chunk_size l.reverse = chunk_size l := by
  simp [chunk_size, List.map_reverse, List.sum_reverse]

theorem take_overlap_size (ov : ℕ) :
    ∀ (r : List (List Char)) (acc : ℕ), acc ≤ ov →
      acc + chunk_size (take_overlap ov acc r) ≤ ov := by
  intro r
  induction r with
  | nil => intro acc h; simpa [take_overlap, chunk_size] using h
  | cons s rest ih =>
    intro acc h
    rw [take_overlap]
    by_cases hs : acc + s.length ≤ ov
    · have := ih (acc + s.length) hs
      simp only [hs, if_pos]
      simp only [chunk_size, List.map_cons, List.sum_cons] at this ⊢
      omega
    · simpa [hs, chunk_size] using h

theorem take_overlap_max (ov : ℕ) :
    ∀ (r : List (List Char)) (acc : ℕ) (q : List (List Char)),
      q <+: r → acc + chunk_size q ≤ ov → q <+: take_overlap ov acc r := by
  intro r
  induction r with
  | nil =>
    intro acc q hq _
    have : q = [] := List.prefix_nil.mp hq
    simp [this]
  | cons s rest ih =>
    intro acc q hq hsize
    cases q with
    | nil => simp
    | cons s' q' =>
      rcases hq with ⟨t, ht⟩
      rw [List.cons_append] at ht
      injection ht with h1 h2
      subst h1
      have hq' : q' <+: rest := ⟨t, h2⟩
      have hss : chunk_size (s' :: q') = s'.length + chunk_size q' := by
        simp [chunk_size]
      have hfit : acc + s'.length ≤ ov := by omega
      rw [take_overlap]
      simp only [hfit, if_pos]
      rcases ih (acc + s'.length) q' hq' (by omega) with ⟨t, ht⟩
      exact ⟨t, by simp [ht]⟩

theorem overlap_of_size (ov : ℕ) (chunk : List (List Char)) :
    chunk_size (overlap_of ov chunk) ≤ ov := by
  have := take_overlap_size ov chunk.reverse 0 (Nat.zero_le ov)
  simpa [overlap_of, chunk_size_reverse] using this

theorem overlap_of_max (ov : ℕ) (chunk l : List (List Char))
    (hl : l <:+ chunk) (hsize : chunk_size l ≤ ov) :
    l <:+ overlap_of ov chunk := by
  have hp : l.reverse <+: chunk.reverse := rev_pre_of_suffix hl
  have hs : 0 + chunk_size l.reverse ≤ ov := by
    simpa [chunk_size_reverse] using hsize
  have h := rev_suffix_of_pre (take_overlap_max ov chunk.reverse 0 l.reverse hp hs)
  rw [List.reverse_reverse] at h
  exact h

theorem overlap_of_last_big (ov : ℕ) (init : List (List Char)) (s : List Char)
    (h : ov < s.length) :
    overlap_of ov (init ++ [s]) = [] := by
  have hlen : ¬(s.length ≤ ov) := by omega
  simp [overlap_of, take_overlap, hlen]

/-! ### Every chunk is the concatenation of a contiguous run of sentences -/

theorem split_loop_chunks_contig (mn mx ov : ℕ) :
    ∀ (sents cur : List (List Char)) (c : List Char),
      c ∈ split_loop mn mx ov sents cur →
        ∃ l, l <:+: (cur ++ sents) ∧ c = l.flatten := by
  intro sents
  induction sents with
  | nil =>
    intro cur c hc
    by_cases h : cur = []
    · simp [split_loop, h] at hc
    · rw [split_loop_last mn mx ov cur h] at hc
      rcases List.mem_singleton.mp hc with rfl
      exact ⟨cur, ⟨[], [], by simp⟩, rfl⟩
  | cons s rest ih =>
    intro cur c hc
    by_cases hsplit : chunk_size (cur ++ [s]) ≥ mx ∨ (chunk_size (cur ++ [s]) ≥ mn ∧ rest ≠ [])
    · rw [split_loop_close mn mx ov s rest cur hsplit] at hc
      rcases List.mem_cons.mp hc with rfl | hc
      · refine ⟨cur ++ [s], ⟨[], rest, by simp⟩, rfl⟩
      · rcases ih (overlap_of ov (cur ++ [s])) c hc with ⟨l, hl, rfl⟩
        refine ⟨l, ?_, rfl⟩
        have hsuf : overlap_of ov (cur ++ [s]) ++ rest <:+ (cur ++ [s]) ++ rest :=
          suffix_append_same (overlap_of_isSuf ov (cur ++ [s]))
        have : l <:+: (cur ++ [s]) ++ rest := infix_extends_to_suffix hl hsuf
        simpa using this
    · rw [split_loop_cont mn mx ov s rest cur hsplit] at hc
      rcases ih (cur ++ [s]) c hc with ⟨l, hl, rfl⟩
      exact ⟨l, by simpa using hl, rfl⟩

theorem split_text_chunks_contig (mn mx ov : ℕ) (text : List Char) (c : List Char)
    (hc : c ∈ split_text mn mx ov text) :
    ∃ l, l <:+: split_into_sentences text ∧ c = l.flatten := by
  by_cases h : text = []
  · simp [split_text, h] at hc
  · rw [split_text, if_neg h] at hc
    simpa using split_loop_chunks_contig mn mx ov (split_into_sentences text) [] c hc

/-! ### The instrumented loop refines the plain loop -/

theorem split_loopP_chunks (mn mx ov : ℕ) :
    ∀ (sents seed added : List (List Char)),
      (split_loopP mn mx ov sents seed added).map (fun p => p.1 ++ p.2) =
        split_loop mn mx ov sents (seed ++ added) := by
  intro sents
  induction sents with
  | nil =>
    intro seed added
    by_cases h : seed ++ added = [] <;>
      simp [split_loopP, split_loop, h]
  | cons s rest ih =>
    intro seed added
    rw [split_loopP, split_loop]
    have hassoc : seed ++ (added ++ [s]) = (seed ++ added) ++ [s] := by simp
    rw [hassoc]
    by_cases hsplit :
        chunk_size ((seed ++ added) ++ [s]) ≥ mx ∨
          (chunk_size ((seed ++ added) ++ [s]) ≥ mn ∧ rest ≠ [])
    · have hne : (seed ++ added) ++ [s] ≠ [] := by simp
      simp only [hsplit, if_pos, if_neg hne, List.map_cons]
      rw [ih]
      simp
    · simp only [hsplit, if_neg, if_false]
      rw [ih]
      simp

theorem split_loopP_bodies (mn mx ov : ℕ) :
    ∀ (sents seed added : List (List Char)),
      ((split_loopP mn mx ov sents seed added).map (fun p => p.2)).flatten =
        added.flatten ++ sents.flatten := by
  intro sents
  induction sents with
  | nil =>
    intro seed added
    by_cases h : seed ++ added = []
    · have : added = [] := (List.append_eq_nil.mp h).2
      simp [split_loopP, h, this]
    · simp [split_loopP, h]
  | cons s rest ih =>
    intro seed added
    rw [split_loopP]
    by_cases hsplit :
        chunk_size (seed ++ (added ++ [s])) ≥ mx ∨
          (chunk_size (seed ++ (added ++ [s])) ≥ mn ∧ rest ≠ [])
    · have hne : seed ++ (added ++ [s]) ≠ [] := by simp
      simp only [hsplit, if_pos, if_neg hne, List.map_cons]
      rw [List.flatten_cons, ih]
      simp
    · simp only [hsplit, if_neg, if_false]
      rw [ih]
      simp

theorem split_textP_chunks (mn mx ov : ℕ) (text : List Char) :
    split_text mn mx ov text = (split_textP mn mx ov text).map (fun p => p.1 ++ p.2) := by
  by_cases h : text = []
  · simp [split_text, split_textP, h]
  · rw [split_text, split_textP, if_neg h, if_neg h,
      split_loopP_chunks mn mx ov (split_into_sentences text) [] []]
    simp

theorem split_textP_lossless (mn mx ov : ℕ) (text : List Char) :
    ((split_textP mn mx ov text).map (fun p => p.2)).flatten = text := by
  by_cases h : text = []
  · simp [split_textP, h]
  · rw [split_textP, if_neg h, split_loopP_bodies mn mx ov (split_into_sentences text) [] []]
    simpa using flatten_split_into_sentences text

/-! ## Keyword scoring (`QdrantManager.calculate_keyword_score`,
src/vector_store.py) -/

/-- Python `str.isdigit` on the (ASCII-digit) tokens the extractor produces:
true iff non-empty and all characters are digits. -/
def pyIsDigit (kw : List Char) : Bool :=
  !kw.isEmpty && kw.all Char.isDigit

/-- Python `int(...)` on a digit string: its decimal value. -/
def pyInt (kw : List Char) : ℕ :=
  kw.foldl (fun a c => 10 * a + (c.toNat - 48)) 0

/-- The loop body of `calculate_keyword_score` for one query keyword `kw`
against the text keyword set: exact match adds 1.0; otherwise, for keywords of
length ≥ 3, the inner scan adds 0.5 on the first text keyword that contains or
is contained in `kw`; independently, for numeric keywords, the second inner
scan adds 0.8 on the first numeric text keyword within distance 1. -/
def kw_contribution (tks : List (List Char)) (kw : List Char) : ℚ :=
  (if kw ∈ tks then (1 : ℚ)
   else if 3 ≤ kw.length then
     (if tks.any (fun tk => decide (kw <:+: tk) || decide (tk <:+: kw))
      then (0.5 : ℚ) else 0)
   else 0)
  + (if pyIsDigit kw then
       (if tks.any (fun tk =>
            pyIsDigit tk && decide (((pyInt kw : ℤ) - (pyInt tk : ℤ)).natAbs ≤ 1))
        then (0.8 : ℚ) else 0)
     else 0)

/-- `QdrantManager.calculate_keyword_score`, with the external
keyword extractor (`extract_keywords`, built on jieba) passed as a parameter:
empty query keyword sets score 0.0, otherwise the summed per-keyword matches
are normalised by the query keyword count and clamped to 1.0. -/
def calculate_keyword_score (extract : List Char → List (List Char))
    (query_keywords : List (List Char)) (text : List Char) : ℚ :=
  if query_keywords = [] then 0
  else
    let text_keywords := extract text
    min ((query_keywords.map (kw_contribution text_keywords)).sum /
          (query_keywords.length : ℚ)) 1

/-- The per-keyword match contribution exactly as the claim words it: 1.0 for
an exact element; otherwise 0.5 when length ≥ 3 and some text keyword is a
substring of or has as substring the keyword; plus, accumulating
independently, 0.8 for a numeric keyword with a numeric text keyword whose
integer value differs by at most 1. -/
def contribution_claim (tks : List (List Char)) (kw : List Char) : ℚ :=
  (if kw ∈ tks then (1 : ℚ)
   else if 3 ≤ kw.length ∧ (∃ tk ∈ tks, kw <:+: tk ∨ tk <:+: kw) then (0.5 : ℚ)
   else 0)
  + (if pyIsDigit kw ∧ (∃ tk ∈ tks, pyIsDigit tk ∧ ((pyInt kw : ℤ) - (pyInt tk : ℤ)).natAbs ≤ 1)
     then (0.8 : ℚ) else 0)

theorem kw_contribution_eq_claim (tks : List (List Char)) (kw : List Char) :
    kw_contribution tks kw = contribution_claim tks kw := by
  rw [kw_contribution, contribution_claim]
  congr 1
  · by_cases hmem : kw ∈ tks
    · simp [hmem]
    · by_cases hlen : 3 ≤ kw.length
      · simp only [hmem, if_neg, if_false, hlen, if_pos, if_true]
        by_cases hany : ∃ tk ∈ tks, kw <:+: tk ∨ tk <:+: kw
        · have : tks.any (fun tk => decide (kw <:+: tk) || decide (tk <:+: kw)) = true := by
            simpa [List.any_eq_true] using hany
          simp [this, hlen, hany]
        · have : tks.any (fun tk => decide (kw <:+: tk) || decide (tk <:+: kw)) = false := by
            simpa [List.any_eq_true] using hany
          simp [this, hlen, hany]
      · simp [hmem, hlen]
  · by_cases hdig : pyIsDigit kw
    · by_cases hany : ∃ tk ∈ tks, pyIsDigit tk ∧ ((pyInt kw : ℤ) - (pyInt tk : ℤ)).natAbs ≤ 1
      · have : tks.any (fun tk =>
            pyIsDigit tk && decide (((pyInt kw : ℤ) - (pyInt tk : ℤ)).natAbs ≤ 1)) = true := by
          simpa [List.any_eq_true] using hany
        simp [this, hdig, hany]
      · have : tks.any (fun tk =>
            pyIsDigit tk && decide (((pyInt kw : ℤ) - (pyInt tk : ℤ)).natAbs ≤ 1)) = false := by
          simpa [List.any_eq_true] using hany
        simp [this, hdig, hany]
    · simp [hdig]

theorem kw_contribution_nonneg (tks : List (List Char)) (kw : List Char) :
    0 ≤ kw_contribution tks kw := by
  rw [kw_contribution]
  have h1 : (0 : ℚ) ≤
      (if kw ∈ tks then (1 : ℚ)
       else if 3 ≤ kw.length then
         (if tks.any (fun tk => decide (kw <:+: tk) || decide (tk <:+: kw))
          then (0.5 : ℚ) else 0)
       else 0) := by
    split <;> norm_num
    split <;> norm_num
    split <;> norm_num
  have h2 : (0 : ℚ) ≤
      (if pyIsDigit kw then
         (if tks.any (fun tk =>
              pyIsDigit tk && decide (((pyInt kw : ℤ) - (pyInt tk : ℤ)).natAbs ≤ 1))
          then (0.8 : ℚ) else 0)
       else 0) := by
    split <;> norm_num
    split <;> norm_num
  linarith

/-! ## Hybrid ranking (`QdrantManager.hybrid_search`, src/vector_store.py) -/

/-- A candidate returned by the external vector index: id, payload text and
vector-similarity score. -/
structure Candidate where
  id : ℕ
  text : List Char
  vector_score : ℚ
deriving DecidableEq

/-- A result dict built by `hybrid_search` for one candidate. -/
structure ScoredResult where
  id : ℕ
  hybrid_score : ℚ
  vector_score : ℚ
  keyword_score : ℚ
  text : List Char
deriving DecidableEq

/-- The comparison realised by
`hybrid_results.sort(key=lambda x: x["hybrid_score"], reverse=True)`:
`a` may come before `b` exactly when its hybrid score is at least `b`'s. -/
def le_hybrid (a b : ScoredResult) : Bool :=
  decide (b.hybrid_score ≤ a.hybrid_score)

/-- The body of the scoring loop of `hybrid_search`: keyword score from
`calculate_keyword_score`, hybrid score as the weighted sum
`vector_score * vector_weight + keyword_score * keyword_weight`. -/
def scoreCandidate (extract : List Char → List (List Char))
    (query_keywords : List (List Char)) (vector_weight keyword_weight : ℚ)
    (c : Candidate) : ScoredResult :=
  let ks := calculate_keyword_score extract query_keywords c.text
  { id := c.id
    hybrid_score := c.vector_score * vector_weight + ks * keyword_weight
    vector_score := c.vector_score
    keyword_score := ks
    text := c.text }

/-- The fusion phase of `hybrid_search` (lines 375-405): score every
candidate, sort by hybrid score descending with Python's stable sort, filter
by `hybrid_score >= score_threshold`, return the first `top_k`. -/
def rank (extract : List Char → List (List Char))
    (query_keywords : List (List Char)) (cands : List Candidate) (top_k : ℕ)
    (score_threshold vector_weight keyword_weight : ℚ) : List ScoredResult :=
  let hybrid_results := cands.map (scoreCandidate extract query_keywords
    vector_weight keyword_weight)
  let sorted := hybrid_results.mergeSort le_hybrid
  let filtered_results := sorted.filter
    (fun r => decide (score_threshold ≤ r.hybrid_score))
  filtered_results.take top_k

/-- `ScoreFusion.rank` as the spec words it: score every candidate, retain
those with `hybrid_score ≥ score_threshold`, sort descending by hybrid score
breaking ties by input candidate order (made explicit by decorating with the
input index and ordering lexicographically), truncate to `top_k`. -/
def rank_claim (extract : List Char → List (List Char))
    (query_keywords : List (List Char)) (cands : List Candidate) (top_k : ℕ)
    (score_threshold vector_weight keyword_weight : ℚ) : List ScoredResult :=
  let scored := (cands.map (scoreCandidate extract query_keywords
    vector_weight keyword_weight)).enum
  let retained := scored.filter (fun p => decide (score_threshold ≤ p.2.hybrid_score))
  ((retained.mergeSort (List.enumLE le_hybrid)).map (fun p => p.2)).take top_k

theorem le_hybrid_trans (a b c : ScoredResult) :
    le_hybrid a b → le_hybrid b c → le_hybrid a c := by
  simp only [le_hybrid, decide_eq_true_eq]
  intro h₁ h₂
  exact le_trans h₂ h₁

theorem le_hybrid_total (a b : ScoredResult) :
    le_hybrid a b || le_hybrid b a := by
  simp only [le_hybrid, Bool.or_eq_true, decide_eq_true_eq]
  exact (le_total b.hybrid_score a.hybrid_score)

/-- Two sorted lists that are permutations of each other agree, provided the
ordering is antisymmetric on the elements actually present. -/
theorem sorted_perm_eq {α : Type} {r : α → α → Prop} :
    ∀ {l₁ l₂ : List α}, l₁.Perm l₂ → l₁.Pairwise r → l₂.Pairwise r →
      (∀ a ∈ l₁, ∀ b ∈ l₁, r a b → r b a → a = b) → l₁ = l₂ := by
  intro l₁
  induction l₁ with
  | nil =>
    intro l₂ hp _ _ _
    exact hp.nil_eq
  | cons a t ih =>
    intro l₂ hp h₁ h₂ hanti
    cases l₂ with
    | nil => exact absurd hp.eq_nil (List.cons_ne_nil a t)
    | cons b t₂ =>
      have hab : a = b := by
        have hbmem : b ∈ a :: t := hp.mem_iff.mpr (List.mem_cons_self b t₂)
        rcases List.mem_cons.mp hbmem with h | h
        · exact h.symm
        · have hamem : a ∈ b :: t₂ := hp.mem_iff.mp (List.mem_cons_self a t)
          rcases List.mem_cons.mp hamem with h' | h'
          · exact h'
          · exact hanti a (List.mem_cons_self a t) b (List.mem_cons.mpr (Or.inr h))
              ((List.pairwise_cons.mp h₁).1 b h) ((List.pairwise_cons.mp h₂).1 a h')
      subst hab
      have ht : t.Perm t₂ := hp.cons_inv
      have := ih ht (List.pairwise_cons.mp h₁).2 (List.pairwise_cons.mp h₂).2
        (fun x hx y hy => hanti x (List.mem_cons_of_mem _ hx) y (List.mem_cons_of_mem _ hy))
      rw [this]

/-- Within `l.enum`, the index determines the element. -/
theorem enum_eq_of_fst_eq {α : Type} {l : List α} {a b : ℕ × α}
    (ha : a ∈ l.enum) (hb : b ∈ l.enum) (h : a.1 = b.1) : a = b := by
  have ha' := List.mem_enum_iff_getElem?.mp ha
  have hb' := List.mem_enum_iff_getElem?.mp hb
  rw [h] at ha'
  rw [hb'] at ha'
  have : a.2 = b.2 := by
    exact Option.some.inj ha'.symm
  exact Prod.ext h this

theorem enumLE_antisymm_on_enum {l : List ScoredResult} {a b : ℕ × ScoredResult}
    (ha : a ∈ l.enum) (hb : b ∈ l.enum)
    (hab : List.enumLE le_hybrid a b = true) (hba : List.enumLE le_hybrid b a = true) :
    a = b := by
  rw [List.enumLE] at hab hba
  by_cases h₁ : le_hybrid a.2 b.2
  · by_cases h₂ : le_hybrid b.2 a.2
    · simp only [h₁, h₂, if_pos, decide_eq_true_eq] at hab hba
      exact enum_eq_of_fst_eq ha hb (Nat.le_antisymm hab hba)
    · simp only [h₂, if_neg, if_false, h₁, if_pos] at hba
      cases hba
  · simp only [h₁, if_neg, if_false] at hab
    cases hab

/-- Filtering commutes with the stable sort on index-decorated results. -/
theorem filter_mergeSort_enum (l : List ScoredResult) (p : ScoredResult → Bool) :
    ((l.enum.mergeSort (List.enumLE le_hybrid)).filter (fun x => p x.2)) =
      ((l.enum.filter (fun x => p x.2)).mergeSort (List.enumLE le_hybrid)) := by
  have htr := List.enumLE_trans le_hybrid_trans
  have htot := List.enumLE_total le_hybrid_total
  apply sorted_perm_eq (r := fun a b => List.enumLE le_hybrid a b = true)
  · exact ((List.mergeSort_perm l.enum _).filter _).trans
      (List.mergeSort_perm _ _).symm
  · exact (List.sorted_mergeSort htr htot l.enum).filter _
  · exact List.sorted_mergeSort htr htot _
  · intro a hamem b hbmem hab hba
    have ha : a ∈ l.enum := List.mem_mergeSort.mp (List.mem_of_mem_filter hamem)
    have hb : b ∈ l.enum := List.mem_mergeSort.mp (List.mem_of_mem_filter hbmem)
    exact enumLE_antisymm_on_enum ha hb hab hba

theorem rank_eq_rank_claim (extract : List Char → List (List Char))
    (query_keywords : List (List Char)) (cands : List Candidate) (top_k : ℕ)
    (score_threshold vector_weight keyword_weight : ℚ) :
    rank extract query_keywords cands top_k score_threshold vector_weight keyword_weight =
      rank_claim extract query_keywords cands top_k score_threshold vector_weight
        keyword_weight := by
  rw [rank, rank_claim]
  set l := cands.map (scoreCandidate extract query_keywords vector_weight keyword_weight)
    with hl
  set p : ScoredResult → Bool := fun r => decide (score_threshold ≤ r.hybrid_score)
    with hp
  have h1 : l.mergeSort le_hybrid =
      (l.enum.mergeSort (List.enumLE le_hybrid)).map (fun x => x.2) :=
    (List.mergeSort_enum).symm
  rw [h1, List.filter_map]
  simp only [Function.comp_def]
  rw [filter_mergeSort_enum]

theorem rank_sorted (extract : List Char → List (List Char))
    (query_keywords : List (List Char)) (cands : List Candidate) (top_k : ℕ)
    (score_threshold vector_weight keyword_weight : ℚ) :
    (rank extract query_keywords cands top_k score_threshold vector_weight
      keyword_weight).Pairwise
        (fun a b => b.hybrid_score ≤ a.hybrid_score) := by
  rw [rank]
  have hs : ((cands.map (scoreCandidate extract query_keywords vector_weight
      keyword_weight)).mergeSort le_hybrid).Pairwise
        (fun a b => b.hybrid_score ≤ a.hybrid_score) := by
    have := List.sorted_mergeSort le_hybrid_trans le_hybrid_total
      (cands.map (scoreCandidate extract query_keywords vector_weight keyword_weight))
    exact this.imp (fun h => by simpa [le_hybrid] using h)
  exact ((hs.filter _).sublist (List.take_sublist _ _))

/-! ## The full hybrid search and its external collaborators -/

/-- Modelled from the spec: the external `VectorIndex.search` collaborator
(spec §6), which is not part of this repository.  Given the indexed
candidates, it returns them pre-sorted by vector similarity descending,
filtered by the index-side score threshold, truncated to `limit`. -/
def index_search (db : List Candidate) (limit : ℕ) (score_threshold : ℚ) :
    List Candidate :=
  ((db.mergeSort (fun a b => decide (b.vector_score ≤ a.vector_score))).filter
    (fun c => decide (score_threshold ≤ c.vector_score))).take limit

/-- `QdrantManager.hybrid_search` on a successful index call: extract the
query keywords, fetch up to 1000 candidates from the vector index with an
index-side threshold of 0.0, then score, sort, filter by the caller's
threshold and truncate (the fusion phase `rank`). -/
def hybrid_search (extract : List Char → List (List Char)) (db : List Candidate)
    (query : List Char) (top_k : ℕ)
    (score_threshold keyword_weight vector_weight : ℚ) : List ScoredResult :=
  let query_keywords := extract query
  let vector_results := index_search db 1000 0
  rank extract query_keywords vector_results top_k score_threshold
    vector_weight keyword_weight

/-- Error kinds the spec assigns to the external boundary. -/
inductive RetrievalError where
  | externalUnavailable
deriving DecidableEq

/-- The observable outcome of `hybrid_search` when the external vector-index
call may fail, embedded with an explicit error channel: the source wraps the
whole body in `try`/`except`, logs any exception and returns `[]`, so the
run never places anything on the error channel. -/
def hybrid_search_run (extract : List Char → List (List Char))
    (search_result : Except RetrievalError (List Candidate)) (query : List Char)
    (top_k : ℕ) (score_threshold keyword_weight vector_weight : ℚ) :
    Except RetrievalError (List ScoredResult) :=
  match search_result with
  | Except.error _ => Except.ok []
  | Except.ok pts =>
      Except.ok (rank extract (extract query) pts top_k score_threshold
        vector_weight keyword_weight)

/-- Modelled from the spec: the retrieval pipeline of spec §4.4/§7, which
surfaces any external-call failure to the caller as a typed error and never
returns partial results.  No such error propagation exists in
`src/vector_store.py`; this definition follows the spec's words and is
compared against the source's behaviour. -/
def retrieve_spec (extract : List Char → List (List Char))
    (search_result : Except RetrievalError (List Candidate)) (query : List Char)
    (top_k : ℕ) (score_threshold keyword_weight vector_weight : ℚ) :
    Except RetrievalError (List ScoredResult) :=
  match search_result with
  | Except.error e => Except.error e
  | Except.ok pts =>
      Except.ok (rank extract (extract query) pts top_k score_threshold
        vector_weight keyword_weight)

/-! ### Score bounds -/

theorem calculate_keyword_score_nonneg (extract : List Char → List (List Char))
    (query_keywords : List (List Char)) (text : List Char) :
    0 ≤ calculate_keyword_score extract query_keywords text := by
  rw [calculate_keyword_score]
  by_cases h : query_keywords = []
  · simp [h]
  · simp only [h, if_neg, if_false]
    apply le_min _ (by norm_num)
    apply div_nonneg
    · apply List.sum_nonneg
      intro x hx
      rcases List.mem_map.mp hx with ⟨kw, _, rfl⟩
      exact kw_contribution_nonneg _ kw
    · exact_mod_cast Nat.zero_le _

theorem calculate_keyword_score_le_one (extract : List Char → List (List Char))
    (query_keywords : List (List Char)) (text : List Char) :
    calculate_keyword_score extract query_keywords text ≤ 1 := by
  rw [calculate_keyword_score]
  by_cases h : query_keywords = []
  · simp [h]
  · simp only [h, if_neg, if_false]
    exact min_le_right _ _

/-! ## Claim theorems -/

/-- C2: for every valid configuration (`0 < overlap < min_size ≤ max_size`)
and every input text, the chunk splitter returns an empty sequence iff the
text is empty; every chunk's text is a concatenation of contiguous original
sentences in document order; and concatenating the chunks after removing each
chunk's overlap-seed prefix reconstructs the original text losslessly. -/
theorem C2_split_lossless (mn mx ov : ℕ) (text : List Char)
    (_hcfg : valid_config mn mx ov) :
    (split_text mn mx ov text = [] ↔ text = []) ∧
    (∀ c ∈ split_text mn mx ov text,
      ∃ l, l <:+: split_into_sentences text ∧ c = l.flatten) ∧
    split_text mn mx ov text = (split_textP mn mx ov text).map (fun p => p.1 ++ p.2) ∧
    ((split_textP mn mx ov text).map (fun p => p.2)).flatten = text := by
  refine ⟨⟨?_, ?_⟩, ?_, ?_, ?_⟩
  · intro h
    by_contra hne
    have hs : split_into_sentences text ≠ [] :=
      fun hh => hne ((split_into_sentences_eq_nil_iff text).mp hh)
    have := split_loop_ne_nil mn mx ov (split_into_sentences text) [] (Or.inr hs)
    rw [split_text, if_neg hne] at h
    exact this h
  · intro h
    simp [split_text, h]
  · exact fun c hc => split_text_chunks_contig mn mx ov text c hc
  · exact split_textP_chunks mn mx ov text
  · exact split_textP_lossless mn mx ov text

theorem C2_split_lossless_witness :
    valid_config 4 6 3 ∧
    ((split_text 4 6 3 ['a', '。'] = [] ↔ ['a', '。'] = ([] : List Char)) ∧
     (∀ c ∈ split_text 4 6 3 ['a', '。'],
       ∃ l, l <:+: split_into_sentences ['a', '。'] ∧ c = l.flatten) ∧
     split_text 4 6 3 ['a', '。'] =
       (split_textP 4 6 3 ['a', '。']).map (fun p => p.1 ++ p.2) ∧
     ((split_textP 4 6 3 ['a', '。']).map (fun p => p.2)).flatten = ['a', '。']) :=
  ⟨by decide, C2_split_lossless 4 6 3 ['a', '。'] (by decide)⟩

/-- C3: after appending each sentence, the chunk is closed iff its accumulated
length reaches `max_size`, or reaches `min_size` on a non-final sentence; a
sentence of length ≥ `max_size` closes the chunk at once, whole, into a chunk
at least that long (so possibly exceeding `max_size`); chunks never cut a
sentence; concretely, a lone 5-character sentence under `max_size = 3` becomes
one oversized chunk. -/
theorem C3_close_rule (mn mx ov : ℕ) :
    (∀ (s : List Char) (rest cur : List (List Char)),
      (chunk_size (cur ++ [s]) ≥ mx ∨ (chunk_size (cur ++ [s]) ≥ mn ∧ rest ≠ [])) →
        split_loop mn mx ov (s :: rest) cur =
          (cur ++ [s]).flatten :: split_loop mn mx ov rest (overlap_of ov (cur ++ [s]))) ∧
    (∀ (s : List Char) (rest cur : List (List Char)),
      ¬(chunk_size (cur ++ [s]) ≥ mx ∨ (chunk_size (cur ++ [s]) ≥ mn ∧ rest ≠ [])) →
        split_loop mn mx ov (s :: rest) cur = split_loop mn mx ov rest (cur ++ [s])) ∧
    (∀ (s : List Char) (rest cur : List (List Char)), mx ≤ s.length →
      split_loop mn mx ov (s :: rest) cur =
        (cur ++ [s]).flatten :: split_loop mn mx ov rest (overlap_of ov (cur ++ [s])) ∧
      s.length ≤ ((cur ++ [s]).flatten).length) ∧
    (∀ (text : List Char) (c : List Char), c ∈ split_text mn mx ov text →
      ∃ l, l <:+: split_into_sentences text ∧ c = l.flatten) ∧
    (split_text 2 3 1 ['a', 'b', 'c', 'd', 'e'] = [['a', 'b', 'c', 'd', 'e']] ∧
      3 < (5 : ℕ)) := by
  refine ⟨?_, ?_, ?_, ?_, by decide⟩
  · exact fun s rest cur h => split_loop_close mn mx ov s rest cur h
  · exact fun s rest cur h => split_loop_cont mn mx ov s rest cur h
  · intro s rest cur h
    have hsize : chunk_size (cur ++ [s]) ≥ mx := by
      have : chunk_size (cur ++ [s]) = chunk_size cur + s.length := by
        simp [chunk_size]
      omega
    refine ⟨split_loop_close mn mx ov s rest cur (Or.inl hsize), ?_⟩
    have : ((cur ++ [s]).flatten).length = chunk_size (cur ++ [s]) := by
      simp [chunk_size]
    have h2 : chunk_size (cur ++ [s]) = chunk_size cur + s.length := by
      simp [chunk_size]
    omega
  · exact fun text c hc => split_text_chunks_contig mn mx ov text c hc

theorem C3_close_rule_witness :
    (chunk_size ([] ++ [['a', 'b', '。']]) ≥ 3 ∨
      (chunk_size ([] ++ [['a', 'b', '。']]) ≥ 2 ∧ ([] : List (List Char)) ≠ [])) ∧
    split_loop 2 3 1 [['a', 'b', '。']] [] =
      ([] ++ [['a', 'b', '。']]).flatten ::
        split_loop 2 3 1 [] (overlap_of 1 ([] ++ [['a', 'b', '。']])) ∧
    (3 : ℕ) ≤ ['a', 'b', '。'].length ∧
    ['a', 'b', '。'].length ≤ (([] ++ [['a', 'b', '。']]).flatten).length := by
  refine ⟨by decide, (C3_close_rule 2 3 1).1 ['a', 'b', '。'] [] [] (by decide), by decide,
    ((C3_close_rule 2 3 1).2.2.1 ['a', 'b', '。'] [] [] (by decide)).2⟩

/-- C4: after a close, the next chunk is seeded with exactly the maximal
suffix of whole sentences of the closed chunk whose cumulative length fits
within `overlap` (it is a suffix, fits the budget, and contains every suffix
that fits); if even the last sentence does not fit, the seed is empty; the
recursion really restarts from this seed. -/
theorem C4_overlap_seed (ov : ℕ) (chunk : List (List Char)) :
    (overlap_of ov chunk <:+ chunk) ∧
    chunk_size (overlap_of ov chunk) ≤ ov ∧
    (∀ l, l <:+ chunk → chunk_size l ≤ ov → l <:+ overlap_of ov chunk) ∧
    (∀ (init : List (List Char)) (s : List Char), chunk = init ++ [s] →
      ov < s.length → overlap_of ov chunk = []) ∧
    (∀ (mn mx : ℕ) (s : List Char) (rest cur : List (List Char)),
      (chunk_size (cur ++ [s]) ≥ mx ∨ (chunk_size (cur ++ [s]) ≥ mn ∧ rest ≠ [])) →
        split_loop mn mx ov (s :: rest) cur =
          (cur ++ [s]).flatten :: split_loop mn mx ov rest (overlap_of ov (cur ++ [s]))) := by
  refine ⟨overlap_of_isSuf ov chunk, overlap_of_size ov chunk, ?_, ?_, ?_⟩
  · exact fun l hl hs => overlap_of_max ov chunk l hl hs
  · intro init s hchunk hlen
    rw [hchunk]
    exact overlap_of_last_big ov init s hlen
  · exact fun mn mx s rest cur h => split_loop_close mn mx ov s rest cur h

theorem C4_overlap_seed_witness :
    ([['c', 'd', '。']] <:+ [['a', 'b', '。'], ['c', 'd', '。']]) ∧
    chunk_size [['c', 'd', '。']] ≤ 3 ∧
    [['c', 'd', '。']] <:+ overlap_of 3 [['a', 'b', '。'], ['c', 'd', '。']] ∧
    overlap_of 2 [['a', 'b', '。'], ['c', 'd', '。']] = [] := by
  refine ⟨⟨[['a', 'b', '。']], rfl⟩, by decide, ?_, ?_⟩
  · exact (C4_overlap_seed 3 [['a', 'b', '。'], ['c', 'd', '。']]).2.2.1
      [['c', 'd', '。']] ⟨[['a', 'b', '。']], rfl⟩ (by decide)
  · exact (C4_overlap_seed 2 [['a', 'b', '。'], ['c', 'd', '。']]).2.2.2.1
      [['a', 'b', '。']] ['c', 'd', '。'] rfl (by decide)

/-- C5 counterexample: at the invalid configuration
`min_size = 2, max_size = 3, overlap = 5` (violating `overlap < min_size`),
`split_text` succeeds and returns a chunk list, where the claim says the
operation must fail with `InvalidConfiguration`. -/
theorem C5_counterexample :
    split_text_run 2 3 5 ['a'] = Except.ok [['a']] ∧
    split_text_spec 2 3 5 ['a'] = Except.error ChunkError.invalidConfiguration ∧
    split_text_run 2 3 5 ['a'] ≠ split_text_spec 2 3 5 ['a'] := by
  have h1 : split_text_run 2 3 5 ['a'] = Except.ok [['a']] := rfl
  have h2 : split_text_spec 2 3 5 ['a'] = Except.error ChunkError.invalidConfiguration := by
    rw [split_text_spec, if_neg]
    decide
  refine ⟨h1, h2, ?_⟩
  intro h
  rw [h1, h2] at h
  exact Except.noConfusion h

/-- C5 amended: the chunk splitting operation performs no configuration
validation at all: for every configuration, valid or not, it succeeds and
returns the chunk list (and no `InvalidConfiguration` error path exists). -/
theorem C5_no_validation (mn mx ov : ℕ) (text : List Char) :
    split_text_run mn mx ov text = Except.ok (split_text mn mx ov text) ∧
    (split_text_run mn mx ov text).isOk = true :=
  ⟨rfl, rfl⟩

/-- C9: when the input ends exactly at a chunk boundary, the leftover overlap
buffer is still emitted as one additional final chunk (`split_loop` on an
exhausted sentence list emits any non-empty current chunk); concretely, with
`min = 4, max = 6, overlap = 3` the text `ab。cd。` yields two chunks whose
second is exactly the overlap seed of the first — a textual suffix of it,
contributing no new characters. -/
theorem C9_trailing_overlap_chunk (mn mx ov : ℕ) :
    (∀ cur : List (List Char), cur ≠ [] → split_loop mn mx ov [] cur = [cur.flatten]) ∧
    (valid_config 4 6 3 ∧
      split_text 4 6 3 ['a', 'b', '。', 'c', 'd', '。'] =
        [['a', 'b', '。', 'c', 'd', '。'], ['c', 'd', '。']] ∧
      (overlap_of 3 [['a', 'b', '。'], ['c', 'd', '。']]).flatten = ['c', 'd', '。'] ∧
      ['c', 'd', '。'] <:+ ['a', 'b', '。', 'c', 'd', '。']) := by
  refine ⟨fun cur h => split_loop_last mn mx ov cur h,
    by decide, by decide, by decide, ⟨['a', 'b', '。'], rfl⟩⟩

theorem C9_trailing_overlap_chunk_witness :
    ([['a', 'b', '。']] : List (List Char)) ≠ [] ∧
    split_loop 4 6 3 [] [['a', 'b', '。']] = [List.flatten [['a', 'b', '。']]] :=
  ⟨by decide, (C9_trailing_overlap_chunk 4 6 3).1 [['a', 'b', '。']] (by decide)⟩

/-- C1: the hybrid rank operation computes each candidate's keyword and
hybrid scores by the stated formulas, and its output equals the spec-worded
pipeline (retain exactly the candidates with `hybrid_score ≥ score_threshold`,
inclusive; sort non-increasing by hybrid score with ties broken by input
order; truncate to `top_k`); the output is non-increasing in hybrid score and
`top_k = 0` yields the empty sequence. -/
theorem C1_hybrid_rank (extract : List Char → List (List Char))
    (query_keywords : List (List Char)) (cands : List Candidate) (top_k : ℕ)
    (score_threshold vector_weight keyword_weight : ℚ) :
    (∀ c : Candidate,
      (scoreCandidate extract query_keywords vector_weight keyword_weight c).keyword_score =
        calculate_keyword_score extract query_keywords c.text ∧
      (scoreCandidate extract query_keywords vector_weight keyword_weight c).hybrid_score =
        c.vector_score * vector_weight +
          calculate_keyword_score extract query_keywords c.text * keyword_weight) ∧
    rank extract query_keywords cands top_k score_threshold vector_weight keyword_weight =
      rank_claim extract query_keywords cands top_k score_threshold vector_weight
        keyword_weight ∧
    (rank extract query_keywords cands top_k score_threshold vector_weight
      keyword_weight).Pairwise (fun a b => b.hybrid_score ≤ a.hybrid_score) ∧
    rank extract query_keywords cands 0 score_threshold vector_weight keyword_weight
      = [] := by
  refine ⟨fun c => ⟨rfl, rfl⟩,
    rank_eq_rank_claim extract query_keywords cands top_k score_threshold vector_weight
      keyword_weight,
    rank_sorted extract query_keywords cands top_k score_threshold vector_weight
      keyword_weight, ?_⟩
  simp [rank]

/-- C6 counterexample: on a failing external search, `hybrid_search` returns
a plain empty list on the success channel — no typed error reaches the
caller, where the claim (and spec §4.4) say the failure is surfaced as a
typed error alongside the empty result. -/
theorem C6_counterexample :
    hybrid_search_run (fun _ => []) (Except.error RetrievalError.externalUnavailable)
        [] 5 (0.05 : ℚ) (0.3 : ℚ) (0.7 : ℚ) = Except.ok [] ∧
    retrieve_spec (fun _ => []) (Except.error RetrievalError.externalUnavailable)
        [] 5 (0.05 : ℚ) (0.3 : ℚ) (0.7 : ℚ) =
      Except.error RetrievalError.externalUnavailable ∧
    hybrid_search_run (fun _ => []) (Except.error RetrievalError.externalUnavailable)
        [] 5 (0.05 : ℚ) (0.3 : ℚ) (0.7 : ℚ) ≠
      retrieve_spec (fun _ => []) (Except.error RetrievalError.externalUnavailable)
        [] 5 (0.05 : ℚ) (0.3 : ℚ) (0.7 : ℚ) := by
  refine ⟨rfl, rfl, ?_⟩
  intro h
  exact Except.noConfusion h

/-- C6 amended: on an external search failure the retrieval returns the empty
result list with the error caught and logged rather than surfaced (the run
never produces an error value); on success it returns the fully scored and
ranked list, so a non-empty result is always fully scored and ranked. -/
theorem C6_no_partial_results (extract : List Char → List (List Char))
    (query : List Char) (top_k : ℕ)
    (score_threshold keyword_weight vector_weight : ℚ) :
    (∀ e, hybrid_search_run extract (Except.error e) query top_k score_threshold
        keyword_weight vector_weight = Except.ok []) ∧
    (∀ pts, hybrid_search_run extract (Except.ok pts) query top_k score_threshold
        keyword_weight vector_weight =
      Except.ok (rank extract (extract query) pts top_k score_threshold
        vector_weight keyword_weight)) ∧
    (∀ search_result, (hybrid_search_run extract search_result query top_k
        score_threshold keyword_weight vector_weight).isOk = true) := by
  refine ⟨fun e => rfl, fun pts => rfl, fun sr => ?_⟩
  cases sr <;> rfl

/-- C7: the per-keyword match contribution is 1.0 for an exact element,
otherwise 0.5 for a length-≥3 keyword in a mutual-substring relation with
some text keyword, plus — independently, not mutually exclusively — 0.8 for a
numeric keyword within integer distance 1 of some numeric text keyword;
concretely, the keyword `"5"` against text keywords `{"5"}` earns
1.0 + 0.8 = 1.8. -/
theorem C7_match_contribution (tks : List (List Char)) (kw : List Char) :
    kw_contribution tks kw = contribution_claim tks kw ∧
    kw_contribution [['5']] ['5'] = (1.8 : ℚ) := by
  refine ⟨kw_contribution_eq_claim tks kw, ?_⟩
  have h1 : (['5'] : List Char) ∈ [['5']] := by decide
  have h3 : [['5']].any (fun tk =>
      pyIsDigit tk && decide (((pyInt ['5'] : ℤ) - (pyInt tk : ℤ)).natAbs ≤ 1)) = true := by
    decide
  rw [kw_contribution, if_pos h1, if_pos (by decide : pyIsDigit ['5'] = true), if_pos h3]
  norm_num

/-- C8: the keyword score always lies in `[0, 1]`, and an empty query keyword
set scores exactly 0 (no division by zero is ever attempted). -/
theorem C8_score_bounds (extract : List Char → List (List Char))
    (query_keywords : List (List Char)) (text : List Char) :
    0 ≤ calculate_keyword_score extract query_keywords text ∧
    calculate_keyword_score extract query_keywords text ≤ 1 ∧
    calculate_keyword_score extract [] text = 0 := by
  refine ⟨calculate_keyword_score_nonneg extract query_keywords text,
    calculate_keyword_score_le_one extract query_keywords text, ?_⟩
  simp [calculate_keyword_score]

/-- A two-candidate index for the concrete part of C10: one passage with high
vector score and no keyword overlap with the query, one with vector score 0
whose text equals the query. -/
def exampleDb : List Candidate :=
  [{ id := 0, text := ['x'], vector_score := 0.9 },
   { id := 1, text := ['q'], vector_score := 0 }]

/-- A degenerate keyword extractor for concrete examples: the whole text is
its only keyword. -/
def exampleExtract : List Char → List (List Char) := fun t => [t]

/-- C10: `hybrid_search` asks the vector index for at most 1000 candidates at
an index-side threshold of 0.0 and applies the caller's threshold only in the
fusion phase; consequently every result is the scoring of some candidate of
that ≤1000-element pool — a passage outside it can never appear — while,
concretely, a pooled passage with vector score 0 does appear in the result on
the strength of its keyword score. -/
theorem C10_candidate_pool (extract : List Char → List (List Char))
    (db : List Candidate) (query : List Char) (top_k : ℕ)
    (score_threshold keyword_weight vector_weight : ℚ) :
    (hybrid_search extract db query top_k score_threshold keyword_weight vector_weight =
      rank extract (extract query) (index_search db 1000 0) top_k score_threshold
        vector_weight keyword_weight) ∧
    (index_search db 1000 0).length ≤ 1000 ∧
    (∀ r ∈ hybrid_search extract db query top_k score_threshold keyword_weight
        vector_weight,
      ∃ c ∈ index_search db 1000 0,
        r = scoreCandidate extract (extract query) vector_weight keyword_weight c) ∧
    (∃ r ∈ hybrid_search exampleExtract exampleDb ['q'] 5 (0.05 : ℚ) (0.3 : ℚ) (0.7 : ℚ),
      r.vector_score = 0) := by
  refine ⟨rfl, ?_, ?_, ?_⟩
  · rw [index_search]
    exact List.length_take_le _ _
  · intro r hr
    rw [hybrid_search, rank] at hr
    have h1 : r ∈ ((index_search db 1000 0).map (scoreCandidate extract (extract query)
        vector_weight keyword_weight)).mergeSort le_hybrid :=
      List.mem_of_mem_filter (List.mem_of_mem_take hr)
    have h2 := List.mem_mergeSort.mp h1
    rcases List.mem_map.mp h2 with ⟨c, hc, rfl⟩
    exact ⟨c, hc, rfl⟩
  · -- the zero-vector-score candidate of `exampleDb` reaches the result list
    refine ⟨scoreCandidate exampleExtract (exampleExtract ['q']) (0.7 : ℚ) (0.3 : ℚ)
      { id := 1, text := ['q'], vector_score := 0 }, ?_, rfl⟩
    have hkw := calculate_keyword_score_nonneg exampleExtract (exampleExtract ['q']) ['q']
    have hc1 : ({ id := 1, text := ['q'], vector_score := 0 } : Candidate) ∈
        index_search exampleDb 1000 0 := by
      rw [index_search]
      have hlen : ((exampleDb.mergeSort
          (fun a b => decide (b.vector_score ≤ a.vector_score))).filter
            (fun c => decide ((0 : ℚ) ≤ c.vector_score))).length ≤ 1000 := by
        calc ((exampleDb.mergeSort
              (fun a b => decide (b.vector_score ≤ a.vector_score))).filter
                (fun c => decide ((0 : ℚ) ≤ c.vector_score))).length
            ≤ (exampleDb.mergeSort
                (fun a b => decide (b.vector_score ≤ a.vector_score))).length :=
              List.length_filter_le _ _
          _ = exampleDb.length := List.length_mergeSort _
          _ ≤ 1000 := by decide
      rw [List.take_of_length_le hlen, List.mem_filter, List.mem_mergeSort]
      constructor
      · decide
      · simp
    rw [hybrid_search, rank]
    set pool := index_search exampleDb 1000 0 with hpool
    have hscored : scoreCandidate exampleExtract (exampleExtract ['q']) (0.7 : ℚ) (0.3 : ℚ)
        { id := 1, text := ['q'], vector_score := 0 } ∈
        (pool.map (scoreCandidate exampleExtract (exampleExtract ['q'])
          (0.7 : ℚ) (0.3 : ℚ))).mergeSort le_hybrid := by
      rw [List.mem_mergeSort]
      exact List.mem_map_of_mem _ hc1
    have hthr : decide ((0.05 : ℚ) ≤ (scoreCandidate exampleExtract (exampleExtract ['q'])
        (0.7 : ℚ) (0.3 : ℚ)
        { id := 1, text := ['q'], vector_score := 0 }).hybrid_score) = true := by
      rw [decide_eq_true_eq]
      show (0.05 : ℚ) ≤ (0 : ℚ) * (0.7 : ℚ) +
        calculate_keyword_score exampleExtract (exampleExtract ['q']) ['q'] * (0.3 : ℚ)
      have hone : calculate_keyword_score exampleExtract (exampleExtract ['q']) ['q'] = 1 := by
        have hcontr : kw_contribution [['q']] ['q'] = 1 := by
          rw [kw_contribution, if_pos (by decide : (['q'] : List Char) ∈ [['q']]),
            if_neg (by decide : ¬(pyIsDigit ['q'] = true))]
          norm_num
        show (if ([['q']] : List (List Char)) = [] then (0 : ℚ)
          else min (([['q']].map (kw_contribution [['q']])).sum /
            (([['q']] : List (List Char)).length : ℚ)) 1) = 1
        rw [if_neg (by decide : ¬(([['q']] : List (List Char)) = [])),
          List.map_singleton, hcontr]
        norm_num [List.sum_cons, List.sum_nil]
      rw [hone]
      norm_num
    have hmemf : scoreCandidate exampleExtract (exampleExtract ['q']) (0.7 : ℚ) (0.3 : ℚ)
        { id := 1, text := ['q'], vector_score := 0 } ∈
        ((pool.map (scoreCandidate exampleExtract (exampleExtract ['q'])
          (0.7 : ℚ) (0.3 : ℚ))).mergeSort le_hybrid).filter
            (fun r => decide ((0.05 : ℚ) ≤ r.hybrid_score)) :=
      List.mem_filter.mpr ⟨hscored, hthr⟩
    have hlenf : (((pool.map (scoreCandidate exampleExtract (exampleExtract ['q'])
        (0.7 : ℚ) (0.3 : ℚ))).mergeSort le_hybrid).filter
          (fun r => decide ((0.05 : ℚ) ≤ r.hybrid_score))).length ≤ 5 := by
      calc (((pool.map (scoreCandidate exampleExtract (exampleExtract ['q'])
            (0.7 : ℚ) (0.3 : ℚ))).mergeSort le_hybrid).filter
              (fun r => decide ((0.05 : ℚ) ≤ r.hybrid_score))).length
          ≤ ((pool.map (scoreCandidate exampleExtract (exampleExtract ['q'])
              (0.7 : ℚ) (0.3 : ℚ))).mergeSort le_hybrid).length :=
            List.length_filter_le _ _
        _ = (pool.map (scoreCandidate exampleExtract (exampleExtract ['q'])
              (0.7 : ℚ) (0.3 : ℚ))).length := List.length_mergeSort _
        _ = pool.length := List.length_map _ _
        _ ≤ 5 := by
          rw [hpool, index_search, List.length_take]
          have h1 := List.length_filter_le
            (fun c => decide ((0 : ℚ) ≤ c.vector_score))
            (exampleDb.mergeSort (fun a b => decide (b.vector_score ≤ a.vector_score)))
          have h2 : (exampleDb.mergeSort
              (fun a b => decide (b.vector_score ≤ a.vector_score))).length =
                exampleDb.length := List.length_mergeSort _
          have h3 : exampleDb.length = 2 := rfl
          omega
    rw [List.take_of_length_le hlenf]
    exact hmemf

theorem C10_candidate_pool_witness :
    ∃ r, r ∈ hybrid_search exampleExtract exampleDb ['q'] 5 (0.05 : ℚ) (0.3 : ℚ)
        (0.7 : ℚ) ∧
      ∃ c ∈ index_search exampleDb 1000 0,
        r = scoreCandidate exampleExtract (exampleExtract ['q']) (0.7 : ℚ) (0.3 : ℚ) c := by
  rcases (C10_candidate_pool exampleExtract exampleDb ['q'] 5 (0.05 : ℚ) (0.3 : ℚ)
    (0.7 : ℚ)).2.2.2 with ⟨r, hr, _⟩
  exact ⟨r, hr, (C10_candidate_pool exampleExtract exampleDb ['q'] 5 (0.05 : ℚ) (0.3 : ℚ)
    (0.7 : ℚ)).2.2.1 r hr⟩

end RAG
